/-
Verification of `build_index.py`, a one-shot static index generator.

The script scans a root directory for `*.html` report files, classifies each
file into a (section, subsection) bucket from the first two components of its
path relative to the root, and renders a single HTML document linking to every
rendered file, in a fixed section/subsection order with a per-file category,
display name, and sort position.

The development below is a shallow embedding of the script:

* Python strings are modelled as `List Char` (`Str`).  The filenames in scope
  are ASCII, where Python's `str.lower`/`str.upper`/`str.title` agree with the
  ASCII case maps `Char.toLower`/`Char.toUpper` used here.
* The filesystem is modelled by `FS`: a root-existence flag, a root-readability
  flag, and the list of files below the root (path components relative to the
  root, plus a byte size), given in the order produced by
  `sorted(base_dir.rglob("*.html"))`.  `pathlib`'s globbing yields nothing at
  all for a missing or unreadable directory (`_Selector.select_from` returns an
  empty iterator when the root is not a readable directory), which is modelled
  by `rglobHtml` returning `[]` in those cases.  Directories named `*.html` and
  symbolic links are assumed absent, matching the spec's well-formedness
  assumptions, and the final `open(...).write` is assumed to succeed (the
  default output path is created with `mkdir(parents=True, exist_ok=True)`).
* `defaultdict`-of-`defaultdict` trees are modelled extensionally: an inner
  key exists exactly when at least one file was appended to it, so bucket
  membership is a filter over the discovered files, and `len(tree)` is the
  number of distinct section keys among the discovered files.
* Python's `sorted` is a stable sort with respect to the tuple order on the
  key `(category_priority, name.lower())`; it is modelled by `List.mergeSort`,
  which is also stable for the same total preorder.
* The rendered document is modelled structurally (`SecOut`, `SubOut`, `Card`):
  the HTML template text is an opaque wrapper, but emptiness of a fragment,
  the link targets, and the order of cards are all preserved exactly.
-/
import Mathlib

namespace BuildIndex

/-- A Python string, as a list of characters. -/
abbrev Str := List Char

/-- Characters of a string literal. -/
def cs (s : String) : Str := s.toList

/-- ASCII lowercasing, Python `s.lower()` for the ASCII strings in scope. -/
def lowerStr (s : Str) : Str := s.map Char.toLower

/-- Test whether `p` is an initial segment of `s` (used to build Python's
substring and `endswith` tests). -/
def leadsWith : Str → Str → Bool
  | [], _ => true
  | _ :: _, [] => false
  | a :: as, b :: bs => a == b && leadsWith as bs

/-- Python's substring test `p in s`. -/
def hasSub : Str → Str → Bool
  | [], p => leadsWith p []
  | a :: rest, p => leadsWith p (a :: rest) || hasSub rest p

/-- Python `s.endswith(t)`. -/
def endsWithStr (s t : Str) : Bool := leadsWith t.reverse s.reverse

/-- Python `pathlib.PurePath.suffix` of a file name: the part from the last
dot on, provided that dot is neither the first nor the last character. -/
def pathSuffix (name : Str) : Str :=
  match name.reverse.findIdx? (fun c => c == '.') with
  | none => []
  | some j =>
    let i := name.length - 1 - j
    if 0 < i ∧ i < name.length - 1 then name.drop i else []

/-- Python `pathlib.PurePath.stem`: the name with its suffix removed. -/
def pathStem (name : Str) : Str := name.take (name.length - (pathSuffix name).length)

/-- Join path components with forward slashes, Python
`PurePath.as_posix()` of a relative path. -/
def joinSlash : List Str → Str
  | [] => []
  | [p] => p
  | p :: q :: ps => p ++ '/' :: joinSlash (q :: ps)

/-- Python `"-".replace("-", " ").replace("_", " ")` as used by the display
and label fallbacks. -/
def replaceSeps (s : Str) : Str :=
  (s.map (fun c => if c == '-' then ' ' else c)).map (fun c => if c == '_' then ' ' else c)

/-- ASCII letter test (the cased characters of the ASCII range). -/
def isAsciiLetter (c : Char) : Bool := ('a' ≤ c && c ≤ 'z') || ('A' ≤ c && c ≤ 'Z')

/-- Worker for `pyTitle`: the Boolean records whether the previous character
was cased. -/
def titleAux : Str → Bool → Str
  | [], _ => []
  | c :: rest, prevCased =>
    if isAsciiLetter c then
      (if prevCased then c.toLower else c.toUpper) :: titleAux rest true
    else c :: titleAux rest false

/-- Python `str.title()` on ASCII strings: each maximal run of letters is
capitalised on its first letter, the rest lowercased. -/
def pyTitle (s : Str) : Str := titleAux s false

/-- `SECTION_ORDER` from `build_index.py`. -/
def SECTION_ORDER : List Str := [cs ("archipelago"), cs ("wwrando"), cs ("Root")]

/-- `SUBSECTION_ORDER` from `build_index.py`. -/
def SUBSECTION_ORDER : List Str :=
  [cs ("single-player"), cs ("p1"), cs ("p2"), cs ("p3"), cs ("combined"), cs ("Files")]

/-- `get_file_type` from `build_index.py`: returns `(type_name, css_class)`,
matched on the lowercased file name. -/
def get_file_type (filename : Str) : Str × Str :=
  let name := lowerStr filename
  if hasSub name (cs ("-heatmap")) && endsWithStr name (cs (".html")) then
    (cs ("Heatmap"), cs ("type-heatmap"))
  else if hasSub name (cs ("-items")) && endsWithStr name (cs (".html")) then
    (cs ("Items"), cs ("type-dashboard"))
  else if hasSub name (cs ("-locations")) && endsWithStr name (cs (".html")) then
    (cs ("Locations"), cs ("type-stats"))
  else
    (cs ("View"), cs ("type-other"))

/-- `get_display_name` from `build_index.py`: fixed labels when the lowercased
stem holds a recognized substring, otherwise the title-cased stem with
separators replaced by spaces. -/
def get_display_name (filename : Str) : Str :=
  let stem := lowerStr (pathStem filename)
  if hasSub stem (cs ("-heatmap")) then cs ("Overview Heatmap")
  else if hasSub stem (cs ("-items")) then cs ("By Item")
  else if hasSub stem (cs ("-locations")) then cs ("By Location")
  else pyTitle (replaceSeps (pathStem filename))

/-- `format_section_name` from `build_index.py`: a case-insensitive lookup of
the fixed replacement table, with the title-cased fallback. -/
def format_section_name (name : Str) : Str :=
  let l := lowerStr name
  if l == cs ("archipelago") then cs ("Archipelago (MultiworldGG)")
  else if l == cs ("wwrando") then cs ("WWRando (Standalone)")
  else if l == cs ("single-player") then cs ("Single Player (1P)")
  else if l == cs ("combined") then cs ("3-Player Combined")
  else if l == cs ("p1") then cs ("3-Player: Player 1")
  else if l == cs ("p2") then cs ("3-Player: Player 2")
  else if l == cs ("p3") then cs ("3-Player: Player 3")
  else pyTitle (replaceSeps name)

/-- One file below the root: its path components relative to the root
(directories first, file name last) and its size in bytes. -/
structure FileEntry where
  parts : List Str
  size : Nat
deriving DecidableEq

/-- The filesystem as seen by one run: whether the root directory exists and
is readable, and the files below it in `sorted(rglob)` order. -/
structure FS where
  rootExists : Bool
  rootReadable : Bool
  entries : List FileEntry
deriving DecidableEq

/-- The file's name, its last path component. -/
def nameOf (e : FileEntry) : Str := e.parts.getLastD []

/-- The root directory can be scanned at all. -/
def rootOk (fs : FS) : Bool := fs.rootExists && fs.rootReadable

/-- `sorted(base_dir.rglob("*.html"))`: every file below the root whose name
ends in `.html` (the pattern is case-sensitive), or nothing at all when the
root is missing or unreadable (pathlib suppresses those errors and yields an
empty iterator). -/
def rglobHtml (fs : FS) : List FileEntry :=
  if rootOk fs then fs.entries.filter (fun e => endsWithStr (nameOf e) (cs (".html"))) else []

/-- The files kept by `build_file_tree`: the glob results minus every file
whose name is exactly `index.html` (`if file.name == "index.html": continue`).
Note the comparison is against the constant name, not the caller's output
path. -/
def treeFiles (fs : FS) : List FileEntry :=
  (rglobHtml fs).filter (fun e => decide (nameOf e ≠ cs ("index.html")))

/-- The `(section, subsection)` bucket of a file from its relative path, the
classification rule of `build_file_tree`: depth 1 goes to `Root`/`Files`,
depth 2 to `(directory, Files)`, depth 3 or more to the first two directory
components. -/
def classify (parts : List Str) : Str × Str :=
  match parts with
  | [] => (cs ("Root"), cs ("Files"))
  | [_] => (cs ("Root"), cs ("Files"))
  | [d, _] => (d, cs ("Files"))
  | d :: u :: _ :: _ => (d, u)

/-- `main` always calls `build_file_tree(base_dir)`; the caller's output path
is not passed to it, so the resulting tree does not depend on it. -/
def treeForOutput (fs : FS) (_outputName : Str) : List FileEntry := treeFiles fs

/-- The bucket `tree[s][u]`: the discovered files classified as `(s, u)`, in
discovery order (an inner key of the `defaultdict` tree exists exactly when
its list is nonempty). -/
def bucket (fs : FS) (s u : Str) : List FileEntry :=
  (treeFiles fs).filter (fun e =>
    decide ((classify e.parts).1 = s) && decide ((classify e.parts).2 = u))

/-- `sort_key` from `generate_cards`: category priority (heatmap 0, items 1,
locations 2, other 3) paired with the lowercased name. -/
def sort_key (name : Str) : Nat × Str :=
  let n := lowerStr name
  if hasSub n (cs ("-heatmap")) then (0, n)
  else if hasSub n (cs ("-items")) then (1, n)
  else if hasSub n (cs ("-locations")) then (2, n)
  else (3, n)

/-- Code-point lexicographic order on strings, Python's `<=` on `str`. -/
def strLe : Str → Str → Bool
  | [], _ => true
  | _ :: _, [] => false
  | a :: as, b :: bs =>
    if a.toNat < b.toNat then true
    else if a.toNat = b.toNat then strLe as bs
    else false

/-- Lexicographic order on sort keys, Python's `<=` on `(int, str)` tuples. -/
def keyLe (x y : Nat × Str) : Bool :=
  if x.1 < y.1 then true else if x.1 = y.1 then strLe x.2 y.2 else false

/-- Comparison of two files by `sort_key`. -/
def fileLe (x y : FileEntry) : Bool := keyLe (sort_key (nameOf x)) (sort_key (nameOf y))

/-- `sorted(files, key=sort_key)`: a stable sort by `fileLe`. -/
def sortedBucketList (files : List FileEntry) : List FileEntry := files.mergeSort fileLe

/-- The renderer's per-file extension filter,
`f.suffix.lower() == ".html"`. -/
def htmlOk (e : FileEntry) : Bool := decide (lowerStr (pathSuffix (nameOf e)) = cs (".html"))

/-- One rendered card: the pieces `CARD_TEMPLATE` is filled with.  The size is
kept in raw bytes; its `KB` formatting is presentation only. -/
structure Card where
  href : Str
  file_type : Str
  type_class : Str
  display_name : Str
  sizeBytes : Nat
deriving DecidableEq

/-- The link target of a file: its path relative to the output directory in
POSIX form.  The runs modelled here place the output document in the root
directory (the script's default `target_dir/index.html`), so this is the
file's relative path joined with forward slashes. -/
def hrefOf (e : FileEntry) : Str := joinSlash e.parts

/-- The card generated for one file. -/
def mkCard (e : FileEntry) : Card :=
  ⟨hrefOf e, (get_file_type (nameOf e)).1, (get_file_type (nameOf e)).2,
    get_display_name (nameOf e), e.size⟩

/-- `generate_cards`: sort the bucket by `sort_key`, keep only `.html`
suffixes, and render one card per surviving file, in that order. -/
def generate_cards (files : List FileEntry) : List Card :=
  ((sortedBucketList files).filter htmlOk).map mkCard

/-- One rendered subsection fragment: its raw key and its cards. -/
structure SubOut where
  sname : Str
  cards : List Card
deriving DecidableEq

/-- One rendered section fragment: its raw key and its subsection
fragments. -/
structure SecOut where
  sname : Str
  subs : List SubOut
deriving DecidableEq

/-- `section in tree`: some discovered file is classified under `s`. -/
def sectionPresent (fs : FS) (s : Str) : Bool :=
  (treeFiles fs).any (fun e => decide ((classify e.parts).1 = s))

/-- The fragment the main loop emits for subsection `u` of section `s`:
nothing when the bucket key is absent (equivalently, the bucket is empty) or
when `cards_html` is blank, otherwise the cards. -/
def subOutFor (fs : FS) (s u : Str) : Option SubOut :=
  if (bucket fs s u).isEmpty then none
  else if (generate_cards (bucket fs s u)).isEmpty then none
  else some ⟨u, generate_cards (bucket fs s u)⟩

/-- The subsection fragments of section `s`, in `SUBSECTION_ORDER`. -/
def subOuts (fs : FS) (s : Str) : List SubOut := SUBSECTION_ORDER.filterMap (subOutFor fs s)

/-- The fragment the main loop emits for section `s`: nothing when `s` is not
a key of the tree or all its subsection fragments are empty. -/
def secOutFor (fs : FS) (s : Str) : Option SecOut :=
  if sectionPresent fs s then
    if (subOuts fs s).isEmpty then none else some ⟨s, subOuts fs s⟩
  else none

/-- The rendered sections of the document, in `SECTION_ORDER`. -/
def secOuts (fs : FS) : List SecOut := SECTION_ORDER.filterMap (secOutFor fs)

/-- Every card of the rendered document, in document order: the document's
link set. -/
def allCards (fs : FS) : List Card :=
  ((secOuts fs).map (fun so => (so.subs.map SubOut.cards).flatten)).flatten

/-- The `total_files` counter of `main`: for every bucket whose fragment is
kept, the number of its files with suffix `.html`. -/
def printedTotalFiles (fs : FS) : Nat :=
  (SECTION_ORDER.map (fun s =>
    if sectionPresent fs s then
      (SUBSECTION_ORDER.map (fun u =>
        if (bucket fs s u).isEmpty then 0
        else if (generate_cards (bucket fs s u)).isEmpty then 0
        else ((bucket fs s u).filter htmlOk).length)).sum
    else 0)).sum

/-- The distinct section keys of the tree, whose number is the `len(tree)`
printed by the success summary. -/
def treeSectionKeys (fs : FS) : List Str :=
  ((treeFiles fs).map (fun e => (classify e.parts).1)).dedup

/-- The observable outcome of one run of `main`: the rendered sections, the
use of the `No reports found.` placeholder, the two numbers of the printed
summary, the process exit code, and whether the output document was
written. -/
structure RunResult where
  sections : List SecOut
  placeholderShown : Bool
  totalFiles : Nat
  printedSections : Nat
  exitCode : Nat
  outputWritten : Bool
deriving DecidableEq

/-- One run of `main` on the default output location: scan, classify, render,
write, report.  There is no error path for a missing or unreadable root — the
glob just yields nothing — and the script always writes the document and
returns normally (exit status 0). -/
def runMain (fs : FS) : RunResult :=
  ⟨secOuts fs, (secOuts fs).isEmpty, printedTotalFiles fs,
    (treeSectionKeys fs).length, 0, true⟩

/-- Well-formed path components of a real file: nonempty, and no component
contains a path separator. -/
def goodParts (ps : List Str) : Prop :=
  ps ≠ [] ∧ ∀ c ∈ ps, ('/' : Char) ∉ c

/-- Well-formed filesystem listing: every entry has well-formed components
and no two entries share a path. -/
def WF (fs : FS) : Prop :=
  (∀ e ∈ fs.entries, goodParts e.parts) ∧ (fs.entries.map FileEntry.parts).Nodup

instance (ps : List Str) : Decidable (goodParts ps) := by
  unfold goodParts
  infer_instance

instance (fs : FS) : Decidable (WF fs) := by
  unfold WF
  infer_instance

/-! String lemmas used to reason about Python's substring, `endswith`, and
`pathlib` stem/suffix operations. -/

theorem leadsWith_append_self (p r : Str) : leadsWith p (p ++ r) = true := by
  induction p with
  | nil => rfl
  | cons a as ih => simp [leadsWith, ih]

theorem leadsWith_mono_append {p as : Str} (bs : Str) (h : leadsWith p as = true) :
    leadsWith p (as ++ bs) = true := by
  induction p generalizing as with
  | nil => rfl
  | cons c p' ih =>
    cases as with
    | nil => cases h
    | cons a as' =>
      simp only [leadsWith, Bool.and_eq_true] at h
      simp only [List.cons_append, leadsWith, Bool.and_eq_true]
      exact ⟨h.1, ih h.2⟩

theorem leadsWith_take {p : Str} : ∀ {as : Str} (bs : Str),
    leadsWith p (as ++ bs) = true → p.length ≤ as.length → leadsWith p as = true := by
  induction p with
  | nil => intro as bs _ _; rfl
  | cons c p' ih =>
    intro as bs h hle
    cases as with
    | nil => simp at hle
    | cons a as' =>
      simp only [List.cons_append, leadsWith, Bool.and_eq_true] at h
      simp only [leadsWith, Bool.and_eq_true]
      exact ⟨h.1, ih bs h.2 (by simpa using hle)⟩

theorem mem_of_leadsWith_overlong {b : Char} {bs : Str} : ∀ {p as : Str},
    leadsWith p (as ++ b :: bs) = true → as.length < p.length → b ∈ p := by
  intro p as
  induction as generalizing p with
  | nil =>
    intro h hlt
    cases p with
    | nil => simp at hlt
    | cons c p' =>
      simp only [List.nil_append, leadsWith, Bool.and_eq_true, beq_iff_eq] at h
      rw [h.1]
      exact List.mem_cons_self _ _
  | cons a as' ih =>
    intro h hlt
    cases p with
    | nil => simp at hlt
    | cons c p' =>
      simp only [List.cons_append, leadsWith, Bool.and_eq_true] at h
      exact List.mem_cons_of_mem c (ih h.2 (by simpa using hlt))

theorem hasSub_nil (s : Str) : hasSub s [] = true := by
  cases s with
  | nil => rfl
  | cons a rest => rfl

theorem hasSub_of_leadsWith {s p : Str} (h : leadsWith p s = true) : hasSub s p = true := by
  cases s with
  | nil => exact h
  | cons a rest => simp [hasSub, h]

theorem hasSub_append_left {xs p : Str} (ys : Str) (h : hasSub xs p = true) :
    hasSub (xs ++ ys) p = true := by
  induction xs with
  | nil =>
    cases p with
    | nil => exact hasSub_nil ys
    | cons c p' => cases h
  | cons a rest ih =>
    simp only [hasSub, Bool.or_eq_true] at h
    rcases h with h | h
    · exact hasSub_of_leadsWith (leadsWith_mono_append ys h)
    · simp only [List.cons_append, hasSub, Bool.or_eq_true]
      exact Or.inr (ih h)

theorem hasSub_split {p : Str} {y : Char} {ys : Str} : ∀ xs : Str,
    hasSub (xs ++ y :: ys) p = true →
      hasSub xs p = true ∨ hasSub (y :: ys) p = true ∨ y ∈ p
  | [], h => Or.inr (Or.inl h)
  | x :: xs', h => by
    simp only [List.cons_append, hasSub, Bool.or_eq_true] at h
    rcases h with h | h
    · by_cases hle : p.length ≤ (x :: xs').length
      · exact Or.inl (hasSub_of_leadsWith (leadsWith_take (y :: ys) h hle))
      · exact Or.inr (Or.inr (@mem_of_leadsWith_overlong y ys p (x :: xs') h (by omega)))
    · rcases hasSub_split xs' h with h' | h' | h'
      · exact Or.inl (by simp [hasSub, h'])
      · exact Or.inr (Or.inl h')
      · exact Or.inr (Or.inr h')

theorem hasSub_of_append_ext {stem p : Str} (h : hasSub (stem ++ cs (".html")) p = true)
    (hdot : ('.' : Char) ∈ p → False) (hext : hasSub (cs (".html")) p = false) :
    hasSub stem p = true := by
  have hsplit := @hasSub_split p '.' (cs ("html")) stem
  rcases hsplit h with h' | h' | h'
  · exact h'
  · rw [show ('.' :: cs ("html")) = cs (".html") from rfl, hext] at h'
    cases h'
  · exact absurd h' hdot

theorem endsWithStr_append (x t : Str) : endsWithStr (x ++ t) t = true := by
  unfold endsWithStr
  rw [List.reverse_append]
  exact leadsWith_append_self t.reverse x.reverse

theorem lowerStr_append (x y : Str) : lowerStr (x ++ y) = lowerStr x ++ lowerStr y :=
  List.map_append Char.toLower x y

theorem lowerStr_eq_nil {s : Str} (h : lowerStr s = []) : s = [] := by
  cases s with
  | nil => rfl
  | cons a rest => cases h

theorem pathSuffix_append_html (stem : Str) (h : stem ≠ []) :
    pathSuffix (stem ++ cs (".html")) = cs (".html") := by
  have hpos : 0 < stem.length := List.length_pos.mpr h
  have hrev : (stem ++ cs (".html")).reverse = 'l' :: 'm' :: 't' :: 'h' :: '.' :: stem.reverse := by
    rw [show cs (".html") = ['.', 'h', 't', 'm', 'l'] from rfl, List.reverse_append]
    rfl
  have hfind : List.findIdx? (fun c => c == '.')
      ('l' :: 'm' :: 't' :: 'h' :: '.' :: stem.reverse) = some 4 := rfl
  have hlen : (stem ++ cs (".html")).length = stem.length + 5 := by
    rw [List.length_append]
    rfl
  unfold pathSuffix
  rw [hrev, hfind]
  rw [hlen]
  dsimp only
  rw [show stem.length + 5 - 1 - 4 = stem.length from by omega]
  rw [if_pos ⟨hpos, by omega⟩]
  exact List.drop_left stem (cs (".html"))

theorem pathStem_append_html (stem : Str) (h : stem ≠ []) :
    pathStem (stem ++ cs (".html")) = stem := by
  unfold pathStem
  rw [pathSuffix_append_html stem h]
  rw [List.length_append]
  rw [show (cs (".html")).length = 5 from rfl]
  rw [show stem.length + 5 - 5 = stem.length from by omega]
  exact List.take_left stem (cs (".html"))

theorem hasSub_lower_ext_iff (stem pat : Str)
    (hdot : ('.' : Char) ∈ pat → False) (hext : hasSub (cs (".html")) pat = false) :
    hasSub (lowerStr (stem ++ cs (".html"))) pat = hasSub (lowerStr stem) pat := by
  rw [lowerStr_append, show lowerStr (cs (".html")) = cs (".html") from rfl]
  cases hcase : hasSub (lowerStr stem) pat
  · refine Bool.eq_false_iff.mpr ?_
    intro hmm
    have := hasSub_of_append_ext hmm hdot hext
    rw [hcase] at this
    cases this
  · exact hasSub_append_left _ hcase

theorem ne_nil_of_hasSub {s p : Str} (hp : p ≠ []) (h : hasSub s p = true) : s ≠ [] := by
  intro hs
  subst hs
  cases p with
  | nil => exact hp rfl
  | cons c p' => cases h

theorem stem_ne_nil_of_hasSub_lower {stem p : Str} (hp : p ≠ [])
    (h : hasSub (lowerStr stem) p = true) : stem ≠ [] := by
  intro hs
  exact ne_nil_of_hasSub hp h (by rw [hs]; rfl)

/-! The tree builder's membership rule (C4), the section selection rules
(C6), and the behaviour on empty or unscannable roots (C1, C8). -/

/-- C4 (amended): the tree holds exactly the files below the root whose name
ends in `.html` and is not exactly `index.html`, whatever output path the
caller chose — so an overridden output file with any other name does appear
in the tree, and every file named `index.html` is excluded even when it is
not the output. -/
theorem c4_tree_membership (fs : FS) (out : Str) (e : FileEntry) :
    e ∈ treeForOutput fs out
      ↔ (e ∈ fs.entries ∧ rootOk fs = true
          ∧ endsWithStr (nameOf e) (cs (".html")) = true
          ∧ nameOf e ≠ cs ("index.html")) := by
  unfold treeForOutput treeFiles rglobHtml
  cases h : rootOk fs
  · simp [h]
  · simp only [h, if_true, List.mem_filter, decide_eq_true_eq]
    constructor
    · rintro ⟨⟨h1, h2⟩, h3⟩
      exact ⟨h1, trivial, h2, h3⟩
    · rintro ⟨h1, _, h2, h3⟩
      exact ⟨⟨h1, h2⟩, h3⟩

/-- A filesystem holding a previous run's custom-named output file and a
deeper file named `index.html`. -/
def fsC4 : FS :=
  ⟨true, true, [⟨[cs ("custom.html")], 5⟩, ⟨[cs ("sub"), cs ("index.html")], 7⟩]⟩

/-- Counterexample to C4 as stated: with the output overridden to
`custom.html`, the output file itself is in the tree, while a file named
`index.html` that is not the output is excluded. -/
theorem c4_counterexample :
    (⟨[cs ("custom.html")], 5⟩ : FileEntry) ∈ treeForOutput fsC4 (cs ("custom.html"))
    ∧ (⟨[cs ("sub"), cs ("index.html")], 7⟩ : FileEntry) ∉ treeForOutput fsC4 (cs ("custom.html"))
    ∧ nameOf ⟨[cs ("sub"), cs ("index.html")], 7⟩ ≠ cs ("custom.html") := by
  decide

theorem map_filterMap_sublist {β : Type} (nm : β → Str) (f : Str → Option β) (l : List Str)
    (h : ∀ s b, f s = some b → nm b = s) :
    ((l.filterMap f).map nm).Sublist l := by
  induction l with
  | nil => simp
  | cons s rest ih =>
    cases hfs : f s with
    | none =>
      simp only [List.filterMap_cons, hfs]
      exact ih.cons s
    | some b =>
      simp only [List.filterMap_cons, hfs, List.map_cons]
      rw [h s b hfs]
      exact ih.cons₂ s

theorem subOutFor_eq_some {fs : FS} {s u : Str} {su : SubOut}
    (h : subOutFor fs s u = some su) :
    su = ⟨u, generate_cards (bucket fs s u)⟩
    ∧ bucket fs s u ≠ [] ∧ generate_cards (bucket fs s u) ≠ [] := by
  unfold subOutFor at h
  by_cases h1 : (bucket fs s u).isEmpty = true
  · rw [if_pos h1] at h
    cases h
  · rw [if_neg h1] at h
    by_cases h2 : (generate_cards (bucket fs s u)).isEmpty = true
    · rw [if_pos h2] at h
      cases h
    · rw [if_neg h2] at h
      injection h with h
      refine ⟨h.symm, ?_, ?_⟩
      · intro hh
        exact h1 (by rw [hh]; rfl)
      · intro hh
        exact h2 (by rw [hh]; rfl)

theorem secOutFor_eq_some {fs : FS} {s : Str} {so : SecOut}
    (h : secOutFor fs s = some so) :
    so = ⟨s, subOuts fs s⟩ ∧ sectionPresent fs s = true ∧ subOuts fs s ≠ [] := by
  unfold secOutFor at h
  by_cases h1 : sectionPresent fs s = true
  · rw [if_pos h1] at h
    by_cases h2 : (subOuts fs s).isEmpty = true
    · rw [if_pos h2] at h
      cases h
    · rw [if_neg h2] at h
      injection h with h
      refine ⟨h.symm, h1, ?_⟩
      intro hh
      exact h2 (by rw [hh]; rfl)
  · rw [if_neg h1] at h
    cases h

/-- C6: only sections of the fixed recognized list are rendered, in the
list's order; every rendered section has content; the same holds one level
down for subsections against their fixed list; and no rendered subsection is
empty — so no header ever appears with nothing under it. -/
theorem c6_section_rendering (fs : FS) :
    ((secOuts fs).map SecOut.sname).Sublist SECTION_ORDER
    ∧ (∀ so ∈ secOuts fs, so.sname ∈ SECTION_ORDER ∧ so.subs ≠ []
        ∧ ((so.subs.map SubOut.sname).Sublist SUBSECTION_ORDER)
        ∧ ∀ su ∈ so.subs, su.cards ≠ []) := by
  constructor
  · exact map_filterMap_sublist SecOut.sname (secOutFor fs) SECTION_ORDER
      (fun s so h => by rw [(secOutFor_eq_some h).1])
  · intro so hso
    unfold secOuts at hso
    rw [List.mem_filterMap] at hso
    obtain ⟨s, hs, hfs⟩ := hso
    obtain ⟨hso_eq, hpres, hsubs_ne⟩ := secOutFor_eq_some hfs
    subst hso_eq
    refine ⟨hs, hsubs_ne, ?_, ?_⟩
    · exact map_filterMap_sublist SubOut.sname (subOutFor fs s) SUBSECTION_ORDER
        (fun u su h => by rw [(subOutFor_eq_some h).1])
    · intro su hsu
      unfold subOuts at hsu
      rw [List.mem_filterMap] at hsu
      obtain ⟨u, hu, hfu⟩ := hsu
      obtain ⟨hsu_eq, _, hcards_ne⟩ := subOutFor_eq_some hfu
      subst hsu_eq
      exact hcards_ne

theorem treeFiles_empty_of_rootBad {fs : FS} (h : rootOk fs = false) : treeFiles fs = [] := by
  unfold treeFiles rglobHtml
  rw [h]
  rfl

theorem secOuts_empty (fs : FS) (h : treeFiles fs = []) : secOuts fs = [] := by
  unfold secOuts
  apply List.filterMap_eq_nil_iff.mpr
  intro s _
  unfold secOutFor
  have hpres : sectionPresent fs s = false := by
    unfold sectionPresent
    rw [h]
    rfl
  rw [hpres]
  rfl

theorem printedTotalFiles_empty (fs : FS) (h : treeFiles fs = []) :
    printedTotalFiles fs = 0 := by
  unfold printedTotalFiles
  apply List.sum_eq_zero
  intro x hx
  rw [List.mem_map] at hx
  obtain ⟨s, _, hfx⟩ := hx
  have hpres : sectionPresent fs s = false := by
    unfold sectionPresent
    rw [h]
    rfl
  rw [← hfx, hpres]
  rfl

theorem run_empty (fs : FS) (h : treeFiles fs = []) :
    runMain fs = ⟨[], true, 0, 0, 0, true⟩ := by
  unfold runMain treeSectionKeys
  rw [secOuts_empty fs h, printedTotalFiles_empty fs h, h]
  rfl

/-- C1 (amended): a missing or unreadable root directory is not a fatal
condition for this script — the glob silently yields nothing, so the run
proceeds exactly like a run over an empty tree: it renders and writes the
placeholder document (creating the missing directories for the default
output path) and exits with status 0.  (The model assumes the final write
itself succeeds, as it does for a missing root, which `mkdir -p` first
creates.) -/
theorem c1_missing_root_succeeds (fs : FS)
    (h : fs.rootExists = false ∨ fs.rootReadable = false) :
    (runMain fs).exitCode = 0 ∧ (runMain fs).outputWritten = true
    ∧ (runMain fs).placeholderShown = true ∧ (runMain fs).totalFiles = 0
    ∧ (runMain fs).sections = [] := by
  have hroot : rootOk fs = false := by
    rcases h with h | h <;> simp [rootOk, h]
  rw [run_empty fs (treeFiles_empty_of_rootBad hroot)]
  exact ⟨rfl, rfl, rfl, rfl, rfl⟩

/-- A run whose root directory does not exist. -/
def fsC1 : FS := ⟨false, true, [⟨[cs ("a-heatmap.html")], 100⟩]⟩

/-- Counterexample to C1 as stated: with a missing root the run does not
abort — it writes an output document and finishes with exit status 0 (the
document holding only the placeholder). -/
theorem c1_counterexample :
    fsC1.rootExists = false
    ∧ (runMain fsC1).exitCode = 0
    ∧ (runMain fsC1).outputWritten = true
    ∧ (runMain fsC1).placeholderShown = true := by
  decide

/-- Witness for the amended C1 on a concrete filesystem with a missing
root. -/
theorem c1_missing_root_succeeds_witness :
    (fsC1.rootExists = false ∨ fsC1.rootReadable = false)
    ∧ ((runMain fsC1).exitCode = 0 ∧ (runMain fsC1).outputWritten = true
       ∧ (runMain fsC1).placeholderShown = true ∧ (runMain fsC1).totalFiles = 0
       ∧ (runMain fsC1).sections = []) :=
  ⟨Or.inl rfl, c1_missing_root_succeeds fsC1 (Or.inl rfl)⟩

/-- C8: a root with no matching files is not an error: the run shows the
placeholder, reports zero files and zero sections, writes the document, and
exits with status 0. -/
theorem c8_empty_tree_success (fs : FS) (h : treeFiles fs = []) :
    (runMain fs).placeholderShown = true ∧ (runMain fs).totalFiles = 0
    ∧ (runMain fs).printedSections = 0 ∧ (runMain fs).exitCode = 0
    ∧ (runMain fs).outputWritten = true := by
  rw [run_empty fs h]
  exact ⟨rfl, rfl, rfl, rfl, rfl⟩

/-- An empty root directory. -/
def fsC8 : FS := ⟨true, true, []⟩

/-- Witness for C8 on a concrete empty root. -/
theorem c8_empty_tree_success_witness :
    treeFiles fsC8 = []
    ∧ ((runMain fsC8).placeholderShown = true ∧ (runMain fsC8).totalFiles = 0
       ∧ (runMain fsC8).printedSections = 0 ∧ (runMain fsC8).exitCode = 0
       ∧ (runMain fsC8).outputWritten = true) :=
  ⟨rfl, c8_empty_tree_success fsC8 rfl⟩

/-! Counting machinery: the number of cards of the rendered document matching
any predicate equals a filtered count over the discovered files.  This is the
bridge from the nested render loops to the per-file membership facts of C2,
C3 and C10. -/

theorem bool_eq_false {b : Bool} (h : ¬ b = true) : b = false := by
  cases b
  · rfl
  · exact absurd rfl h

theorem countP_or_of_disjoint {α : Type} (l : List α) (p q : α → Bool)
    (h : ∀ x ∈ l, ¬(p x = true ∧ q x = true)) :
    List.countP p l + List.countP q l = List.countP (fun x => p x || q x) l := by
  induction l with
  | nil => rfl
  | cons a l ih =>
    have ih' := ih (fun x hx => h x (List.mem_cons_of_mem a hx))
    have ha := h a (List.mem_cons_self a l)
    cases hpa : p a <;> cases hqa : q a
    · rw [List.countP_cons_of_neg p l (by simp [hpa]), List.countP_cons_of_neg q l (by simp [hqa]),
        List.countP_cons_of_neg _ l (by simp [hpa, hqa])]
      omega
    · rw [List.countP_cons_of_neg p l (by simp [hpa]), List.countP_cons_of_pos q l (by simp [hqa]),
        List.countP_cons_of_pos _ l (by simp [hpa, hqa])]
      omega
    · rw [List.countP_cons_of_pos p l (by simp [hpa]), List.countP_cons_of_neg q l (by simp [hqa]),
        List.countP_cons_of_pos _ l (by simp [hpa, hqa])]
      omega
    · exact absurd ⟨hpa, hqa⟩ ha

theorem sum_map_filterMap {α β : Type} (g : β → Nat) (f : α → Option β) :
    ∀ l : List α, ((l.filterMap f).map g).sum = (l.map (fun a => ((f a).map g).getD 0)).sum
  | [] => rfl
  | a :: l => by
    cases hfa : f a with
    | none =>
      simp only [List.filterMap_cons, hfa, List.map_cons, List.sum_cons,
        Option.map_none', Option.getD_none]
      rw [sum_map_filterMap g f l]
      omega
    | some b =>
      simp only [List.filterMap_cons, hfa, List.map_cons, List.sum_cons,
        Option.map_some', Option.getD_some]
      rw [sum_map_filterMap g f l]

theorem generate_cards_nil : generate_cards [] = [] := by
  simp [generate_cards, sortedBucketList]

theorem bucket_empty_of_not_present {fs : FS} {s : Str}
    (h : sectionPresent fs s = false) (u : Str) : bucket fs s u = [] := by
  unfold bucket
  apply List.filter_eq_nil_iff.mpr
  intro e he hc
  simp only [Bool.and_eq_true, decide_eq_true_eq] at hc
  have hany : (treeFiles fs).any (fun e => decide ((classify e.parts).1 = s)) = true := by
    apply List.any_eq_true.mpr
    exact ⟨e, he, by simp [hc.1]⟩
  unfold sectionPresent at h
  rw [hany] at h
  cases h

theorem countP_subOut (fs : FS) (p : Card → Bool) (s u : Str) :
    ((subOutFor fs s u).map (fun su => List.countP p su.cards)).getD 0
      = List.countP p (generate_cards (bucket fs s u)) := by
  unfold subOutFor
  by_cases h1 : (bucket fs s u).isEmpty = true
  · rw [if_pos h1, List.isEmpty_iff.mp h1, generate_cards_nil]
    rfl
  · rw [if_neg h1]
    by_cases h2 : (generate_cards (bucket fs s u)).isEmpty = true
    · rw [if_pos h2, List.isEmpty_iff.mp h2]
      rfl
    · rw [if_neg h2]
      rfl

theorem countP_secOut (fs : FS) (p : Card → Bool) (s : Str) :
    ((secOutFor fs s).map (fun so => (so.subs.map (fun su => List.countP p su.cards)).sum)).getD 0
      = (SUBSECTION_ORDER.map (fun u => List.countP p (generate_cards (bucket fs s u)))).sum := by
  unfold secOutFor
  by_cases h1 : sectionPresent fs s = true
  · rw [if_pos h1]
    by_cases h2 : (subOuts fs s).isEmpty = true
    · rw [if_pos h2]
      have hnil : subOuts fs s = [] := List.isEmpty_iff.mp h2
      unfold subOuts at hnil
      have hall := List.filterMap_eq_nil_iff.mp hnil
      symm
      apply List.sum_eq_zero
      intro x hx
      rw [List.mem_map] at hx
      obtain ⟨u, hu, hfx⟩ := hx
      have hN := hall u hu
      unfold subOutFor at hN
      by_cases hb : (bucket fs s u).isEmpty = true
      · rw [← hfx, List.isEmpty_iff.mp hb, generate_cards_nil]
        rfl
      · rw [if_neg hb] at hN
        by_cases hcnil : (generate_cards (bucket fs s u)).isEmpty = true
        · rw [← hfx, List.isEmpty_iff.mp hcnil]
          rfl
        · rw [if_neg hcnil] at hN
          cases hN
    · rw [if_neg h2]
      show ((subOuts fs s).map (fun su => List.countP p su.cards)).sum = _
      unfold subOuts
      rw [sum_map_filterMap]
      simp only [countP_subOut]
  · rw [if_neg h1]
    have hfa : sectionPresent fs s = false := bool_eq_false h1
    symm
    apply List.sum_eq_zero
    intro x hx
    rw [List.mem_map] at hx
    obtain ⟨u, _, hfx⟩ := hx
    rw [← hfx, bucket_empty_of_not_present hfa u, generate_cards_nil]
    rfl

theorem countP_allCards (fs : FS) (p : Card → Bool) :
    List.countP p (allCards fs)
      = (SECTION_ORDER.map (fun s => (SUBSECTION_ORDER.map (fun u =>
          List.countP p (generate_cards (bucket fs s u)))).sum)).sum := by
  unfold allCards
  rw [List.countP_flatten, List.map_map]
  unfold secOuts
  rw [sum_map_filterMap]
  simp only [Function.comp_def, List.countP_flatten, List.map_map]
  simp only [countP_secOut]

theorem countP_generate_cards (fs : FS) (p : Card → Bool) (s u : Str) :
    List.countP p (generate_cards (bucket fs s u))
      = List.countP (fun e => decide ((classify e.parts).1 = s)
          && (decide ((classify e.parts).2 = u) && (htmlOk e && p (mkCard e))))
          (treeFiles fs) := by
  unfold generate_cards sortedBucketList
  rw [List.countP_map, List.countP_filter]
  rw [(List.mergeSort_perm (bucket fs s u) fileLe).countP_eq]
  unfold bucket
  rw [List.countP_filter]
  apply List.countP_congr
  intro e _
  simp only [Function.comp_apply, Bool.and_eq_true]
  tauto

theorem sum_subbuckets (l : List FileEntry) (q : FileEntry → Bool) (s : Str) :
    ∀ uOrd : List Str, uOrd.Nodup →
      (uOrd.map (fun u => List.countP (fun e =>
          decide ((classify e.parts).1 = s)
            && (decide ((classify e.parts).2 = u) && q e)) l)).sum
        = List.countP (fun e =>
            decide ((classify e.parts).1 = s)
              && (decide ((classify e.parts).2 ∈ uOrd) && q e)) l
  | [], _ => by
    symm
    apply List.countP_eq_zero.mpr
    intro e _
    simp
  | u :: rest, hnd => by
    rw [List.map_cons, List.sum_cons]
    rw [sum_subbuckets l q s rest hnd.of_cons]
    rw [countP_or_of_disjoint l _ _ ?hdisj]
    case hdisj =>
      intro x _ hx
      obtain ⟨h1, h2⟩ := hx
      simp only [Bool.and_eq_true, decide_eq_true_eq] at h1 h2
      exact (List.nodup_cons.mp hnd).1 (h1.2.1 ▸ h2.2.1)
    apply List.countP_congr
    intro e _
    simp only [Bool.or_eq_true, Bool.and_eq_true, decide_eq_true_eq, List.mem_cons]
    tauto

theorem sum_buckets (l : List FileEntry) (q : FileEntry → Bool) :
    ∀ sOrd : List Str, sOrd.Nodup → ∀ uOrd : List Str, uOrd.Nodup →
      (sOrd.map (fun s => (uOrd.map (fun u => List.countP (fun e =>
          decide ((classify e.parts).1 = s)
            && (decide ((classify e.parts).2 = u) && q e)) l)).sum)).sum
        = List.countP (fun e =>
            decide ((classify e.parts).1 ∈ sOrd)
              && (decide ((classify e.parts).2 ∈ uOrd) && q e)) l
  | [], _, uOrd, _ => by
    symm
    apply List.countP_eq_zero.mpr
    intro e _
    simp
  | s :: rest, hnd, uOrd, hndu => by
    rw [List.map_cons, List.sum_cons]
    rw [sum_subbuckets l q s uOrd hndu]
    rw [sum_buckets l q rest hnd.of_cons uOrd hndu]
    rw [countP_or_of_disjoint l _ _ ?hdisj]
    case hdisj =>
      intro x _ hx
      obtain ⟨h1, h2⟩ := hx
      simp only [Bool.and_eq_true, decide_eq_true_eq] at h1 h2
      exact (List.nodup_cons.mp hnd).1 (h1.1 ▸ h2.1)
    apply List.countP_congr
    intro e _
    simp only [Bool.or_eq_true, Bool.and_eq_true, decide_eq_true_eq, List.mem_cons]
    tauto

/-- The core counting identity: a card-level count over the whole rendered
document equals a file-level count over the discovered files, filtered by the
recognized-bucket and extension conditions. -/
theorem countP_allCards_eq (fs : FS) (p : Card → Bool) :
    List.countP p (allCards fs)
      = List.countP (fun e =>
          decide ((classify e.parts).1 ∈ SECTION_ORDER)
            && (decide ((classify e.parts).2 ∈ SUBSECTION_ORDER)
              && (htmlOk e && p (mkCard e)))) (treeFiles fs) := by
  rw [countP_allCards]
  simp only [countP_generate_cards]
  exact sum_buckets (treeFiles fs) (fun e => htmlOk e && p (mkCard e))
    SECTION_ORDER (by decide) SUBSECTION_ORDER (by decide)

/-! Injectivity of link targets over a well-formed filesystem. -/

theorem append_slash_inj : ∀ (a b u v : Str), ('/' : Char) ∉ a → ('/' : Char) ∉ b →
    a ++ '/' :: u = b ++ '/' :: v → a = b ∧ u = v
  | [], [], u, v, _, _, h => ⟨rfl, by injection h⟩
  | [], c :: b', u, v, _, hb, h => by
    rw [List.nil_append, List.cons_append] at h
    injection h with h1 h2
    exact absurd (show ('/' : Char) ∈ c :: b' from by rw [← h1]; exact List.mem_cons_self _ _) hb
  | c :: a', [], u, v, ha, _, h => by
    rw [List.nil_append, List.cons_append] at h
    injection h with h1 h2
    exact absurd (show ('/' : Char) ∈ c :: a' from by rw [h1]; exact List.mem_cons_self _ _) ha
  | c :: a', d :: b', u, v, ha, hb, h => by
    rw [List.cons_append, List.cons_append] at h
    injection h with h1 h2
    obtain ⟨h3, h4⟩ := append_slash_inj a' b' u v
      (fun hm => ha (List.mem_cons_of_mem c hm))
      (fun hm => hb (List.mem_cons_of_mem d hm)) h2
    exact ⟨by rw [h1, h3], h4⟩

theorem joinSlash_inj : ∀ (xs ys : List Str), xs ≠ [] → ys ≠ [] →
    (∀ c ∈ xs, ('/' : Char) ∉ c) → (∀ c ∈ ys, ('/' : Char) ∉ c) →
    joinSlash xs = joinSlash ys → xs = ys
  | [], _, hx, _, _, _, _ => absurd rfl hx
  | _ :: _, [], _, hy, _, _, _ => absurd rfl hy
  | [x], [y], _, _, _, _, h => by
    rw [show joinSlash [x] = x from rfl, show joinSlash [y] = y from rfl] at h
    rw [h]
  | [x], y :: y' :: ys', _, _, hx, hy, h => by
    exfalso
    apply hx x (List.mem_cons_self x [])
    rw [show joinSlash [x] = x from rfl,
      show joinSlash (y :: y' :: ys') = y ++ '/' :: joinSlash (y' :: ys') from rfl] at h
    rw [h]
    exact List.mem_append_right y (List.mem_cons_self '/' _)
  | x :: x' :: xs', [y], _, _, hx, hy, h => by
    exfalso
    apply hy y (List.mem_cons_self y [])
    rw [show joinSlash [y] = y from rfl,
      show joinSlash (x :: x' :: xs') = x ++ '/' :: joinSlash (x' :: xs') from rfl] at h
    rw [← h]
    exact List.mem_append_right x (List.mem_cons_self '/' _)
  | x :: x' :: xs', y :: y' :: ys', _, _, hx, hy, h => by
    rw [show joinSlash (x :: x' :: xs') = x ++ '/' :: joinSlash (x' :: xs') from rfl,
      show joinSlash (y :: y' :: ys') = y ++ '/' :: joinSlash (y' :: ys') from rfl] at h
    obtain ⟨h1, h2⟩ := append_slash_inj x y _ _
      (hx x (List.mem_cons_self _ _)) (hy y (List.mem_cons_self _ _)) h
    have h3 := joinSlash_inj (x' :: xs') (y' :: ys') (by simp) (by simp)
      (fun c hc => hx c (List.mem_cons_of_mem x hc))
      (fun c hc => hy c (List.mem_cons_of_mem y hc)) h2
    rw [h1, h3]

theorem mem_entries_of_mem_treeFiles {fs : FS} {e : FileEntry} (h : e ∈ treeFiles fs) :
    e ∈ fs.entries := by
  unfold treeFiles rglobHtml at h
  rw [List.mem_filter] at h
  rcases h with ⟨h1, _⟩
  by_cases hr : rootOk fs = true
  · rw [if_pos hr] at h1
    exact (List.mem_filter.mp h1).1
  · rw [if_neg hr] at h1
    cases h1

theorem hrefOf_inj {fs : FS} (hwf : WF fs) {e f : FileEntry}
    (he : e ∈ treeFiles fs) (hf : f ∈ treeFiles fs)
    (h : hrefOf f = hrefOf e) : f = e := by
  have hee := mem_entries_of_mem_treeFiles he
  have hfe := mem_entries_of_mem_treeFiles hf
  have hge := hwf.1 e hee
  have hgf := hwf.1 f hfe
  have hparts : f.parts = e.parts :=
    joinSlash_inj f.parts e.parts hgf.1 hge.1 hgf.2 hge.2 h
  exact List.inj_on_of_nodup_map hwf.2 hfe hee hparts

theorem treeFiles_nodup {fs : FS} (hwf : WF fs) : (treeFiles fs).Nodup := by
  have h1 : fs.entries.Nodup := List.Nodup.of_map FileEntry.parts hwf.2
  unfold treeFiles rglobHtml
  by_cases hr : rootOk fs = true
  · rw [if_pos hr]
    exact (h1.filter _).filter _
  · rw [if_neg hr]
    simp

/-- C2 (amended): every file discovered by the builder whose bucket's section
and subsection both belong to the fixed recognized lists, and whose suffix
passes the renderer's extension filter, appears exactly once in the rendered
document's link set; files bucketed under unrecognized sections or
subsections do not appear at all. -/
theorem c2_roundtrip_recognized (fs : FS) (e : FileEntry)
    (hwf : WF fs) (he : e ∈ treeFiles fs)
    (hsec : (classify e.parts).1 ∈ SECTION_ORDER)
    (hsub : (classify e.parts).2 ∈ SUBSECTION_ORDER)
    (hext : htmlOk e = true) :
    List.countP (fun c => decide (c.href = hrefOf e)) (allCards fs) = 1 := by
  rw [countP_allCards_eq]
  rw [List.countP_congr ?hiff]
  case hiff =>
    intro f hfmem
    show _ ↔ (f == e) = true
    rw [beq_iff_eq]
    constructor
    · intro hp
      simp only [Bool.and_eq_true, decide_eq_true_eq] at hp
      exact hrefOf_inj hwf he hfmem hp.2.2.2
    · intro hfe
      subst hfe
      simp only [Bool.and_eq_true, decide_eq_true_eq]
      exact ⟨hsec, hsub, hext, rfl⟩
  rw [← List.count_eq_countP]
  exact List.count_eq_one_of_mem (treeFiles_nodup hwf) he

/-- A filesystem with a single deep report under recognized section and
subsection names. -/
def fsC2 : FS :=
  ⟨true, true, [⟨[cs ("archipelago"), cs ("p1"), cs ("seed1-items.html")], 10⟩]⟩

/-- Witness for the amended C2 on a concrete recognized file. -/
theorem c2_roundtrip_recognized_witness :
    (WF fsC2
     ∧ (⟨[cs ("archipelago"), cs ("p1"), cs ("seed1-items.html")], 10⟩ : FileEntry)
        ∈ treeFiles fsC2
     ∧ (classify [cs ("archipelago"), cs ("p1"), cs ("seed1-items.html")]).1 ∈ SECTION_ORDER
     ∧ (classify [cs ("archipelago"), cs ("p1"), cs ("seed1-items.html")]).2 ∈ SUBSECTION_ORDER
     ∧ htmlOk ⟨[cs ("archipelago"), cs ("p1"), cs ("seed1-items.html")], 10⟩ = true)
    ∧ List.countP (fun c => decide
        (c.href = hrefOf ⟨[cs ("archipelago"), cs ("p1"), cs ("seed1-items.html")], 10⟩))
        (allCards fsC2) = 1 :=
  ⟨⟨by decide, by decide, by decide, by decide, by decide⟩,
    c2_roundtrip_recognized fsC2 _ (by decide) (by decide) (by decide) (by decide) (by decide)⟩

/-- A filesystem whose only report sits under the unrecognized section
`misc`. -/
def fsC2x : FS := ⟨true, true, [⟨[cs ("misc"), cs ("b-items.html")], 3⟩]⟩

/-- Counterexample to C2 as stated: a file discovered by the builder, ending
in `.html` and not named `index.html`, appears zero times in the link set
because its section is not in the recognized list. -/
theorem c2_counterexample :
    (⟨[cs ("misc"), cs ("b-items.html")], 3⟩ : FileEntry) ∈ treeFiles fsC2x
    ∧ endsWithStr (nameOf ⟨[cs ("misc"), cs ("b-items.html")], 3⟩) (cs (".html")) = true
    ∧ nameOf ⟨[cs ("misc"), cs ("b-items.html")], 3⟩ ≠ cs ("index.html")
    ∧ List.countP (fun c => decide
        (c.href = hrefOf ⟨[cs ("misc"), cs ("b-items.html")], 3⟩)) (allCards fsC2x) = 0 := by
  decide

theorem printedTotalFiles_eq_sum (fs : FS) :
    printedTotalFiles fs
      = (SECTION_ORDER.map (fun s => (SUBSECTION_ORDER.map (fun u =>
          List.countP htmlOk (bucket fs s u))).sum)).sum := by
  unfold printedTotalFiles
  apply congrArg List.sum
  apply List.map_congr_left
  intro s _
  by_cases hp : sectionPresent fs s = true
  · rw [if_pos hp]
    apply congrArg List.sum
    apply List.map_congr_left
    intro u _
    by_cases hb : (bucket fs s u).isEmpty = true
    · rw [if_pos hb, List.isEmpty_iff.mp hb]
      rfl
    · rw [if_neg hb]
      by_cases hc : (generate_cards (bucket fs s u)).isEmpty = true
      · rw [if_pos hc]
        have hfe : (sortedBucketList (bucket fs s u)).filter htmlOk = [] := by
          have h0 := List.isEmpty_iff.mp hc
          unfold generate_cards at h0
          exact List.map_eq_nil_iff.mp h0
        have h0 : List.countP htmlOk (sortedBucketList (bucket fs s u)) = 0 := by
          rw [List.countP_eq_length_filter, hfe]
          rfl
        unfold sortedBucketList at h0
        rw [(List.mergeSort_perm (bucket fs s u) fileLe).countP_eq] at h0
        exact h0.symm
      · rw [if_neg hc]
        rw [List.countP_eq_length_filter]
  · rw [if_neg hp]
    have hfa : sectionPresent fs s = false := bool_eq_false hp
    symm
    apply List.sum_eq_zero
    intro x hx
    rw [List.mem_map] at hx
    obtain ⟨u, _, hfx⟩ := hx
    rw [← hfx, bucket_empty_of_not_present hfa u]
    rfl

/-- C3 (amended): the file count of the printed summary equals the number of
file entries of the rendered document; the printed section count, however, is
the number of distinct section keys of the built tree — including sections
that are dropped from rendering — not the number of rendered sections. -/
theorem c3_summary_counts (fs : FS) :
    (runMain fs).totalFiles = (allCards fs).length
    ∧ (runMain fs).printedSections = (treeSectionKeys fs).length := by
  refine ⟨?_, rfl⟩
  show printedTotalFiles fs = (allCards fs).length
  rw [show (allCards fs).length = List.countP (fun _ => true) (allCards fs) from
    (congrFun List.countP_true (allCards fs)).symm]
  rw [countP_allCards_eq fs (fun _ => true)]
  simp only [Bool.and_true]
  rw [printedTotalFiles_eq_sum]
  have hbucket : ∀ s u, List.countP htmlOk (bucket fs s u)
      = List.countP (fun e => decide ((classify e.parts).1 = s)
          && (decide ((classify e.parts).2 = u) && htmlOk e)) (treeFiles fs) := by
    intro s u
    unfold bucket
    rw [List.countP_filter]
    apply List.countP_congr
    intro e _
    simp only [Bool.and_eq_true]
    tauto
  simp only [hbucket]
  exact sum_buckets (treeFiles fs) htmlOk SECTION_ORDER (by decide) SUBSECTION_ORDER (by decide)

/-- A run whose only report sits in an unrecognized section, so nothing is
rendered but `len(tree)` is 1. -/
def fsC3 : FS := ⟨true, true, [⟨[cs ("misc"), cs ("a.html")], 4⟩]⟩

/-- Counterexample to C3 as stated: the printed section count (1) differs
from the number of sections contributing rendered output (0). -/
theorem c3_counterexample :
    (runMain fsC3).printedSections = 1
    ∧ (secOuts fsC3).length = 0
    ∧ (runMain fsC3).printedSections ≠ (secOuts fsC3).length := by
  decide

/-- C10: matching of filesystem-derived section names against the recognized
order list is case-sensitive exact equality: a top-level directory differing
from a recognized entry only in letter case is never rendered and none of its
files reach the link set — even though the label-formatting lookup is
case-insensitive, as witnessed by `format_section_name` mapping any casing of
`archipelago` to its label. -/
theorem c10_case_sensitive_sections (fs : FS) (d : Str) (e : FileEntry)
    (hwf : WF fs) (hd : d ∉ SECTION_ORDER)
    (_hcase : lowerStr d ∈ SECTION_ORDER.map lowerStr)
    (he : e ∈ treeFiles fs) (hsec : (classify e.parts).1 = d) :
    (∀ so ∈ secOuts fs, so.sname ≠ d)
    ∧ List.countP (fun c => decide (c.href = hrefOf e)) (allCards fs) = 0
    ∧ (∀ nm : Str, lowerStr nm = cs ("archipelago") →
        format_section_name nm = cs ("Archipelago (MultiworldGG)")) := by
  refine ⟨?_, ?_, ?_⟩
  · intro so hso hne
    unfold secOuts at hso
    rw [List.mem_filterMap] at hso
    obtain ⟨s, hs, hfs⟩ := hso
    obtain ⟨hso_eq, _, _⟩ := secOutFor_eq_some hfs
    subst hso_eq
    exact hd (hne ▸ hs)
  · rw [countP_allCards_eq]
    apply List.countP_eq_zero.mpr
    intro f hf hp
    simp only [Bool.and_eq_true, decide_eq_true_eq] at hp
    have hfe : f = e := hrefOf_inj hwf he hf hp.2.2.2
    subst hfe
    exact hd (hsec ▸ hp.1)
  · intro nm hnm
    unfold format_section_name
    simp [hnm]

/-- A filesystem whose only report sits under `Archipelago`, a case variant
of the recognized section `archipelago`. -/
def fsC10 : FS := ⟨true, true, [⟨[cs ("Archipelago"), cs ("x-items.html")], 9⟩]⟩

/-- Witness for C10 on the concrete case-variant directory `Archipelago`. -/
theorem c10_case_sensitive_sections_witness :
    (WF fsC10
     ∧ cs ("Archipelago") ∉ SECTION_ORDER
     ∧ lowerStr (cs ("Archipelago")) ∈ SECTION_ORDER.map lowerStr
     ∧ (⟨[cs ("Archipelago"), cs ("x-items.html")], 9⟩ : FileEntry) ∈ treeFiles fsC10
     ∧ (classify [cs ("Archipelago"), cs ("x-items.html")]).1 = cs ("Archipelago"))
    ∧ ((∀ so ∈ secOuts fsC10, so.sname ≠ cs ("Archipelago"))
       ∧ List.countP (fun c => decide
            (c.href = hrefOf ⟨[cs ("Archipelago"), cs ("x-items.html")], 9⟩))
            (allCards fsC10) = 0
       ∧ (∀ nm : Str, lowerStr nm = cs ("archipelago") →
            format_section_name nm = cs ("Archipelago (MultiworldGG)"))) :=
  ⟨⟨by decide, by decide, by decide, by decide, by decide⟩,
    c10_case_sensitive_sections fsC10 (cs ("Archipelago")) _
      (by decide) (by decide) (by decide) (by decide) (by decide)⟩

/-- C9: for file names holding more than one recognized category substring
(case-insensitive), classification follows the fixed precedence `-heatmap`
over `-items` over `-locations`, and the category function, the display-name
function, and the sort key all apply the same precedence. -/
theorem c9_category_precedence (stem : Str) :
    (hasSub (lowerStr stem) (cs ("-heatmap")) = true →
      get_file_type (stem ++ cs (".html")) = (cs ("Heatmap"), cs ("type-heatmap"))
      ∧ get_display_name (stem ++ cs (".html")) = cs ("Overview Heatmap")
      ∧ (sort_key (stem ++ cs (".html"))).1 = 0)
    ∧ (hasSub (lowerStr stem) (cs ("-heatmap")) = false →
        hasSub (lowerStr stem) (cs ("-items")) = true →
      get_file_type (stem ++ cs (".html")) = (cs ("Items"), cs ("type-dashboard"))
      ∧ get_display_name (stem ++ cs (".html")) = cs ("By Item")
      ∧ (sort_key (stem ++ cs (".html"))).1 = 1)
    ∧ (hasSub (lowerStr stem) (cs ("-heatmap")) = false →
        hasSub (lowerStr stem) (cs ("-items")) = false →
        hasSub (lowerStr stem) (cs ("-locations")) = true →
      get_file_type (stem ++ cs (".html")) = (cs ("Locations"), cs ("type-stats"))
      ∧ get_display_name (stem ++ cs (".html")) = cs ("By Location")
      ∧ (sort_key (stem ++ cs (".html"))).1 = 2) := by
  have hl : lowerStr (stem ++ cs (".html")) = lowerStr stem ++ cs (".html") := by
    rw [lowerStr_append]
    rfl
  have hend : endsWithStr (lowerStr stem ++ cs (".html")) (cs (".html")) = true :=
    endsWithStr_append _ _
  have hheatIff := hasSub_lower_ext_iff stem (cs ("-heatmap")) (by decide) (by decide)
  have hitemsIff := hasSub_lower_ext_iff stem (cs ("-items")) (by decide) (by decide)
  have hlocIff := hasSub_lower_ext_iff stem (cs ("-locations")) (by decide) (by decide)
  rw [hl] at hheatIff hitemsIff hlocIff
  refine ⟨?_, ?_, ?_⟩
  · intro hheat
    have hne : stem ≠ [] := stem_ne_nil_of_hasSub_lower (by decide) hheat
    have h1 : hasSub (lowerStr stem ++ cs (".html")) (cs ("-heatmap")) = true := by
      rw [hheatIff]
      exact hheat
    refine ⟨?_, ?_, ?_⟩
    · unfold get_file_type
      rw [hl]
      simp [h1, hend]
    · unfold get_display_name
      rw [pathStem_append_html stem hne]
      simp [hheat]
    · unfold sort_key
      rw [hl]
      simp [h1]
  · intro hheatF hitems
    have hne : stem ≠ [] := stem_ne_nil_of_hasSub_lower (by decide) hitems
    have h1 : hasSub (lowerStr stem ++ cs (".html")) (cs ("-heatmap")) = false := by
      rw [hheatIff]
      exact hheatF
    have h2 : hasSub (lowerStr stem ++ cs (".html")) (cs ("-items")) = true := by
      rw [hitemsIff]
      exact hitems
    refine ⟨?_, ?_, ?_⟩
    · unfold get_file_type
      rw [hl]
      simp [h1, h2, hend]
    · unfold get_display_name
      rw [pathStem_append_html stem hne]
      simp [hheatF, hitems]
    · unfold sort_key
      rw [hl]
      simp [h1, h2]
  · intro hheatF hitemsF hloc
    have hne : stem ≠ [] := stem_ne_nil_of_hasSub_lower (by decide) hloc
    have h1 : hasSub (lowerStr stem ++ cs (".html")) (cs ("-heatmap")) = false := by
      rw [hheatIff]
      exact hheatF
    have h2 : hasSub (lowerStr stem ++ cs (".html")) (cs ("-items")) = false := by
      rw [hitemsIff]
      exact hitemsF
    have h3 : hasSub (lowerStr stem ++ cs (".html")) (cs ("-locations")) = true := by
      rw [hlocIff]
      exact hloc
    refine ⟨?_, ?_, ?_⟩
    · unfold get_file_type
      rw [hl]
      simp [h1, h2, h3, hend]
    · unfold get_display_name
      rw [pathStem_append_html stem hne]
      simp [hheatF, hitemsF, hloc]
    · unfold sort_key
      rw [hl]
      simp [h1, h2, h3]

/-! Lemmas on the sort comparator: it is a total preorder, so `mergeSort`
with it is exactly the (unique) stable sort Python's `sorted` performs. -/

theorem strLe_refl (s : Str) : strLe s s = true := by
  induction s with
  | nil => rfl
  | cons a as ih => simp [strLe, ih]

theorem strLe_total : ∀ (s t : Str), (strLe s t || strLe t s) = true
  | [], t => by simp [strLe]
  | a :: as, [] => by simp [strLe]
  | a :: as, b :: bs => by
    simp only [strLe]
    rcases Nat.lt_trichotomy a.toNat b.toNat with h | h | h
    · simp [h]
    · simp [h, lt_self_iff_false, strLe_total as bs]
    · simp [show ¬ a.toNat < b.toNat from by omega,
        show ¬ a.toNat = b.toNat from by omega, h]

theorem strLe_trans : ∀ (s t u : Str),
    strLe s t = true → strLe t u = true → strLe s u = true
  | [], _, _, _, _ => rfl
  | _ :: _, [], _, hab, _ => by cases hab
  | _ :: _, _ :: _, [], _, hbc => by cases hbc
  | a :: as, b :: bs, c :: cus, hab, hbc => by
    simp only [strLe] at hab hbc ⊢
    by_cases h1 : a.toNat < b.toNat
    · by_cases h2 : b.toNat < c.toNat
      · rw [if_pos (show a.toNat < c.toNat from by omega)]
      · rw [if_neg h2] at hbc
        by_cases h3 : b.toNat = c.toNat
        · rw [if_pos (show a.toNat < c.toNat from by omega)]
        · rw [if_neg h3] at hbc
          cases hbc
    · rw [if_neg h1] at hab
      by_cases h1e : a.toNat = b.toNat
      · rw [if_pos h1e] at hab
        by_cases h2 : b.toNat < c.toNat
        · rw [if_pos (show a.toNat < c.toNat from by omega)]
        · rw [if_neg h2] at hbc
          by_cases h3 : b.toNat = c.toNat
          · rw [if_pos h3] at hbc
            rw [if_neg (show ¬ a.toNat < c.toNat from by omega),
              if_pos (show a.toNat = c.toNat from by omega)]
            exact strLe_trans as bs cus hab hbc
          · rw [if_neg h3] at hbc
            cases hbc
      · rw [if_neg h1e] at hab
        cases hab

theorem keyLe_refl (x : Nat × Str) : keyLe x x = true := by
  simp [keyLe, strLe_refl]

theorem keyLe_total (x y : Nat × Str) : (keyLe x y || keyLe y x) = true := by
  simp only [keyLe]
  rcases Nat.lt_trichotomy x.1 y.1 with h | h | h
  · simp [h]
  · simp [h, lt_self_iff_false, strLe_total x.2 y.2]
  · simp [show ¬ x.1 < y.1 from by omega, show ¬ x.1 = y.1 from by omega, h]

theorem keyLe_trans (x y z : Nat × Str) :
    keyLe x y = true → keyLe y z = true → keyLe x z = true := by
  intro hab hbc
  simp only [keyLe] at hab hbc ⊢
  by_cases h1 : x.1 < y.1
  · by_cases h2 : y.1 < z.1
    · rw [if_pos (show x.1 < z.1 from by omega)]
    · rw [if_neg h2] at hbc
      by_cases h3 : y.1 = z.1
      · rw [if_pos (show x.1 < z.1 from by omega)]
      · rw [if_neg h3] at hbc
        cases hbc
  · rw [if_neg h1] at hab
    by_cases h1e : x.1 = y.1
    · rw [if_pos h1e] at hab
      by_cases h2 : y.1 < z.1
      · rw [if_pos (show x.1 < z.1 from by omega)]
      · rw [if_neg h2] at hbc
        by_cases h3 : y.1 = z.1
        · rw [if_pos h3] at hbc
          rw [if_neg (show ¬ x.1 < z.1 from by omega),
            if_pos (show x.1 = z.1 from by omega)]
          exact strLe_trans x.2 y.2 z.2 hab hbc
        · rw [if_neg h3] at hbc
          cases hbc
    · rw [if_neg h1e] at hab
      cases hab

theorem fileLe_total (x y : FileEntry) : (fileLe x y || fileLe y x) = true :=
  keyLe_total _ _

theorem fileLe_trans (x y z : FileEntry) :
    fileLe x y = true → fileLe y z = true → fileLe x z = true :=
  keyLe_trans _ _ _

theorem fileLe_of_key_eq {a b : FileEntry}
    (h : sort_key (nameOf a) = sort_key (nameOf b)) : fileLe a b = true := by
  unfold fileLe
  rw [h]
  exact keyLe_refl _

/-- Stability of the modelled sort, in filtered form: the files with any one
sort key appear in the sorted list exactly in their original order. -/
theorem sortedBucketList_filter_key (files : List FileEntry) (k : Nat × Str) :
    (sortedBucketList files).filter (fun e => decide (sort_key (nameOf e) = k))
      = files.filter (fun e => decide (sort_key (nameOf e) = k)) := by
  have hsub : (files.filter (fun e => decide (sort_key (nameOf e) = k))).Sublist files :=
    List.filter_sublist files
  have hpw : (files.filter (fun e => decide (sort_key (nameOf e) = k))).Pairwise
      (fun a b => fileLe a b = true) := by
    apply List.pairwise_of_forall_mem_list
    intro a ha b hb
    rw [List.mem_filter] at ha hb
    have hka := of_decide_eq_true ha.2
    have hkb := of_decide_eq_true hb.2
    exact fileLe_of_key_eq (hka.trans hkb.symm)
  have h2 : (files.filter (fun e => decide (sort_key (nameOf e) = k))).Sublist
      (files.mergeSort fileLe) :=
    List.sublist_mergeSort fileLe_trans fileLe_total hpw hsub
  have h3 := h2.filter (fun e => decide (sort_key (nameOf e) = k))
  rw [List.filter_filter] at h3
  rw [List.filter_congr (fun x _ => by rw [Bool.and_self])] at h3
  have hperm :=
    (List.mergeSort_perm files fileLe).filter (fun e => decide (sort_key (nameOf e) = k))
  exact (h3.eq_of_length hperm.length_eq.symm).symm

/-- C7: the rendered order of a bucket's files is the stable sort by the key
(category priority, lowercased name): the sorted list is a permutation of the
bucket, it is sorted under the comparator, key-equal files keep their original
relative order, the cards are rendered in exactly that order, and the key is
the pair of the category priority (Heatmap 0, Items 1, Locations 2, other 3)
and the case-insensitive file name. -/
theorem c7_bucket_sort_order (fs : FS) (s u : Str) :
    (sortedBucketList (bucket fs s u)).Perm (bucket fs s u)
    ∧ (sortedBucketList (bucket fs s u)).Pairwise (fun a b => fileLe a b = true)
    ∧ (∀ k : Nat × Str,
        (sortedBucketList (bucket fs s u)).filter (fun e => decide (sort_key (nameOf e) = k))
          = (bucket fs s u).filter (fun e => decide (sort_key (nameOf e) = k)))
    ∧ generate_cards (bucket fs s u)
        = ((sortedBucketList (bucket fs s u)).filter htmlOk).map mkCard
    ∧ (∀ n : Str, (sort_key n).2 = lowerStr n
        ∧ (hasSub (lowerStr n) (cs ("-heatmap")) = true → (sort_key n).1 = 0)
        ∧ (hasSub (lowerStr n) (cs ("-heatmap")) = false →
            hasSub (lowerStr n) (cs ("-items")) = true → (sort_key n).1 = 1)
        ∧ (hasSub (lowerStr n) (cs ("-heatmap")) = false →
            hasSub (lowerStr n) (cs ("-items")) = false →
            hasSub (lowerStr n) (cs ("-locations")) = true → (sort_key n).1 = 2)
        ∧ (hasSub (lowerStr n) (cs ("-heatmap")) = false →
            hasSub (lowerStr n) (cs ("-items")) = false →
            hasSub (lowerStr n) (cs ("-locations")) = false → (sort_key n).1 = 3)) := by
  refine ⟨List.mergeSort_perm _ _, List.sorted_mergeSort fileLe_trans fileLe_total _,
    sortedBucketList_filter_key _, rfl, ?_⟩
  intro n
  refine ⟨?_, ?_, ?_, ?_, ?_⟩
  · unfold sort_key
    dsimp only
    split
    · rfl
    · split
      · rfl
      · split
        · rfl
        · rfl
  · intro h1
    simp [sort_key, h1]
  · intro h1 h2
    simp [sort_key, h1, h2]
  · intro h1 h2 h3
    simp [sort_key, h1, h2, h3]
  · intro h1 h2 h3
    simp [sort_key, h1, h2, h3]

/-- C5: the bucket of a discovered file is a pure function of its relative
path: depth 1 maps to (Root, Files), depth 2 to (directory, Files), depth 3
or more to the first two directory components, and no file lies in two
different buckets. -/
theorem c5_classification (d u f : Str) (rest : List Str) (hrest : rest ≠ []) :
    classify [f] = (cs ("Root"), cs ("Files"))
    ∧ classify [d, f] = (d, cs ("Files"))
    ∧ classify (d :: u :: rest) = (d, u)
    ∧ (∀ (fs : FS) (s₁ u₁ s₂ u₂ : Str) (e : FileEntry),
        e ∈ bucket fs s₁ u₁ → e ∈ bucket fs s₂ u₂ → s₁ = s₂ ∧ u₁ = u₂) := by
  refine ⟨rfl, rfl, ?_, ?_⟩
  · cases rest with
    | nil => exact absurd rfl hrest
    | cons x xs => rfl
  · intro fs s₁ u₁ s₂ u₂ e h1 h2
    unfold bucket at h1 h2
    rw [List.mem_filter] at h1 h2
    have e1 := h1.2
    have e2 := h2.2
    simp only [Bool.and_eq_true, decide_eq_true_eq] at e1 e2
    exact ⟨e1.1.symm.trans e2.1, e1.2.symm.trans e2.2⟩

/-- Witness for C5 at concrete paths of each depth and a concrete
filesystem. -/
theorem c5_classification_witness :
    (([cs ("seed1-items.html")] : List Str) ≠ [])
    ∧ (classify [cs ("notes.html")] = (cs ("Root"), cs ("Files"))
       ∧ classify [cs ("archipelago"), cs ("notes.html")] = (cs ("archipelago"), cs ("Files"))
       ∧ classify (cs ("archipelago") :: cs ("p1") :: [cs ("seed1-items.html")])
          = (cs ("archipelago"), cs ("p1"))
       ∧ (∀ (fs : FS) (s₁ u₁ s₂ u₂ : Str) (e : FileEntry),
           e ∈ bucket fs s₁ u₁ → e ∈ bucket fs s₂ u₂ → s₁ = s₂ ∧ u₁ = u₂)) :=
  ⟨by decide,
    c5_classification (cs ("archipelago")) (cs ("p1")) (cs ("notes.html"))
      [cs ("seed1-items.html")] (by decide)⟩

/-- Witness for C9 at the claim's example `x-heatmap-items.html`: the name
holds both `-heatmap` and `-items`, and `-heatmap` wins in all three
functions. -/
theorem c9_category_precedence_witness :
    (hasSub (lowerStr (cs ("x-heatmap-items"))) (cs ("-heatmap")) = true)
    ∧ (get_file_type (cs ("x-heatmap-items") ++ cs (".html"))
          = (cs ("Heatmap"), cs ("type-heatmap"))
        ∧ get_display_name (cs ("x-heatmap-items") ++ cs (".html"))
          = cs ("Overview Heatmap")
        ∧ (sort_key (cs ("x-heatmap-items") ++ cs (".html"))).1 = 0) :=
  ⟨by decide, (c9_category_precedence (cs ("x-heatmap-items"))).1 (by decide)⟩

/-- A filesystem with one recognized-section report and one unrecognized
directory, used to instantiate the universally quantified claims. -/
def fsMixed : FS :=
  ⟨true, true, [⟨[cs ("wwrando"), cs ("a-items.html")], 2⟩, ⟨[cs ("misc"), cs ("b.html")], 3⟩]⟩

/-- Witness for C4 on a concrete filesystem, output override, and file. -/
theorem c4_tree_membership_witness :
    (⟨[cs ("custom.html")], 5⟩ : FileEntry) ∈ treeForOutput fsC4 (cs ("custom.html"))
      ↔ ((⟨[cs ("custom.html")], 5⟩ : FileEntry) ∈ fsC4.entries ∧ rootOk fsC4 = true
          ∧ endsWithStr (nameOf (⟨[cs ("custom.html")], 5⟩ : FileEntry)) (cs (".html")) = true
          ∧ nameOf (⟨[cs ("custom.html")], 5⟩ : FileEntry) ≠ cs ("index.html")) :=
  c4_tree_membership fsC4 (cs ("custom.html")) ⟨[cs ("custom.html")], 5⟩

/-- Witness for C6 on a concrete filesystem. -/
theorem c6_section_rendering_witness :
    ((secOuts fsMixed).map SecOut.sname).Sublist SECTION_ORDER
    ∧ (∀ so ∈ secOuts fsMixed, so.sname ∈ SECTION_ORDER ∧ so.subs ≠ []
        ∧ ((so.subs.map SubOut.sname).Sublist SUBSECTION_ORDER)
        ∧ ∀ su ∈ so.subs, su.cards ≠ []) :=
  c6_section_rendering fsMixed

/-- Witness for C7 on a concrete filesystem and bucket. -/
theorem c7_bucket_sort_order_witness :
    (sortedBucketList (bucket fsMixed (cs ("wwrando")) (cs ("Files")))).Perm
        (bucket fsMixed (cs ("wwrando")) (cs ("Files")))
    ∧ (sortedBucketList (bucket fsMixed (cs ("wwrando")) (cs ("Files")))).Pairwise
        (fun a b => fileLe a b = true)
    ∧ (∀ k : Nat × Str,
        (sortedBucketList (bucket fsMixed (cs ("wwrando")) (cs ("Files")))).filter
            (fun e => decide (sort_key (nameOf e) = k))
          = (bucket fsMixed (cs ("wwrando")) (cs ("Files"))).filter
              (fun e => decide (sort_key (nameOf e) = k)))
    ∧ generate_cards (bucket fsMixed (cs ("wwrando")) (cs ("Files")))
        = ((sortedBucketList (bucket fsMixed (cs ("wwrando")) (cs ("Files")))).filter
            htmlOk).map mkCard
    ∧ (∀ n : Str, (sort_key n).2 = lowerStr n
        ∧ (hasSub (lowerStr n) (cs ("-heatmap")) = true → (sort_key n).1 = 0)
        ∧ (hasSub (lowerStr n) (cs ("-heatmap")) = false →
            hasSub (lowerStr n) (cs ("-items")) = true → (sort_key n).1 = 1)
        ∧ (hasSub (lowerStr n) (cs ("-heatmap")) = false →
            hasSub (lowerStr n) (cs ("-items")) = false →
            hasSub (lowerStr n) (cs ("-locations")) = true → (sort_key n).1 = 2)
        ∧ (hasSub (lowerStr n) (cs ("-heatmap")) = false →
            hasSub (lowerStr n) (cs ("-items")) = false →
            hasSub (lowerStr n) (cs ("-locations")) = false → (sort_key n).1 = 3)) :=
  c7_bucket_sort_order fsMixed (cs ("wwrando")) (cs ("Files"))

/-- Witness for the amended C3 on a concrete filesystem. -/
theorem c3_summary_counts_witness :
    (runMain fsMixed).totalFiles = (allCards fsMixed).length
    ∧ (runMain fsMixed).printedSections = (treeSectionKeys fsMixed).length :=
  c3_summary_counts fsMixed


end BuildIndex
